import Mathlib

/-!
Verification of the tikv replication + transactional storage kernel.

Shallow embedding of the core subsystems of the repository:

* the Raft state machine (`src/raft/raft.rs`),
* the split checkers (`src/raftstore/coprocessor/split_check/{size,half}.rs`),
* the MVCC transaction store (`src/storage/txn/store.rs`).

Pure data is modelled directly; `HashMap`s become association lists; the
random election-timeout draw is an explicit parameter; Rust panics become
`Option.none` (`Option` results), and fallible operations return `Except`.
Modules of the repository that the excerpt does not contain (`raft::raft_log`,
`raft::progress`, `storage::mvcc`, the engine) are modelled from the spec and
are marked `Modelled from the spec:` in their doc comments.
-/

namespace Tikv

/-- Byte-string keys and values are lists of naturals (one per byte).
The lexicographic linear order on `List Nat` mirrors byte-wise key order. -/
abbrev KeyB := List Nat

/-- Association-list lookup, the embedding of `HashMap` / BTree map access.
`none` corresponds to an absent key. -/
def alookup {α β : Type} [DecidableEq α] : List (α × β) → α → Option β
  | [], _ => none
  | (k, v) :: rest, x => if k = x then some v else alookup rest x

/-- Association-list insert-or-replace (embedding of `HashMap::insert`). -/
def ainsert {α β : Type} [DecidableEq α] (l : List (α × β)) (k : α) (v : β) :
    List (α × β) :=
  (k, v) :: l.filter (fun e => e.1 ≠ k)

/-- `keys::origin_key`: the stored form of a key is the internal data key
with a fixed one-byte prefix; the public form strips that byte. -/
def originKey (k : KeyB) : KeyB := k.drop 1

/-! ## Raft data model (`src/raft/raft.rs` and the proto messages) -/

/-- `EntryType` of the raft proto. -/
inductive EntryType where
  | entryNormal
  | entryConfChange
deriving DecidableEq

/-- A log entry (`proto::raftpb::Entry`): term, index and type; the payload
is irrelevant to the claims and elided. -/
structure Entry where
  term : Nat
  index : Nat
  etype : EntryType
deriving DecidableEq

/-- `Entry::new()`: all fields default. -/
def Entry.fresh : Entry := ⟨0, 0, .entryNormal⟩

/-- `StateRole`. -/
inductive StateRole where
  | follower
  | candidate
  | leader
deriving DecidableEq

/-- `HardState` of the proto: `{term, vote, commit}`. -/
structure HardState where
  term : Nat
  vote : Nat
  commit : Nat
deriving DecidableEq

/-- Snapshot metadata: `{index, term, conf_state}`, where the conf state is
its list of nodes. -/
structure SnapMeta where
  index : Nat
  term : Nat
  nodes : List Nat
deriving DecidableEq

/-- A snapshot; the data payload is elided. -/
structure Snapshot where
  meta : SnapMeta
deriving DecidableEq

/-- Modelled from the spec: the `raft::progress` module is not under `src/`.
Leader-side per-follower bookkeeping `{match, next}` (spec §3 Progress);
the in-flight window, pause flag and probe/replicate/snapshot mode are not
needed by the claims and are elided. `Progress::default()` has `matched = 0`. -/
structure Progress where
  matched : Nat
  nextIdx : Nat
deriving DecidableEq

/-- Modelled from the spec: `new_progress(next_idx, ins_size)` in
`raft.rs` builds a progress with the given `next_idx` and default `matched`. -/
def Progress.new (nextIdx : Nat) : Progress := ⟨0, nextIdx⟩

/-- Modelled from the spec: "on accept, advance `match`" (spec §4.D); the
`Progress::maybe_update(n)` of the absent `progress.rs` raises `matched`
to `n` when that is an advance and keeps `next` past `matched`. -/
def Progress.maybeUpdate (p : Progress) (n : Nat) : Bool × Progress :=
  if p.matched < n then (true, ⟨n, max p.nextIdx (n + 1)⟩) else (false, p)

/-- Modelled from the spec: the `raft::raft_log` module is not under `src/`.
The log is a snapshot point `(snapIndex, snapTerm)` followed by the entry
suffix, plus the `committed` index (spec §4.C). -/
structure RaftLog where
  snapIndex : Nat
  snapTerm : Nat
  entries : List Entry
  committed : Nat
deriving DecidableEq

namespace RaftLog

/-- Modelled from the spec: `last_index` is the index of the last entry,
or the snapshot index for an empty suffix. -/
def lastIndex (l : RaftLog) : Nat :=
  match l.entries.getLast? with
  | some e => e.index
  | none => l.snapIndex

/-- Modelled from the spec: `term(i)`, the term of the entry at index `i`;
`none` when the index is compacted away or past the end. -/
def termAt (l : RaftLog) (i : Nat) : Option Nat :=
  if i = l.snapIndex then some l.snapTerm
  else (l.entries.find? (fun e => e.index = i)).map Entry.term

/-- Modelled from the spec: `match_term(i, t)` — the log has an entry at `i`
with term `t`. -/
def matchTerm (l : RaftLog) (i t : Nat) : Bool :=
  l.termAt i = some t

/-- Modelled from the spec: `commit_to(i)` fast-forwards the committed
index (never lowers it). -/
def commitTo (l : RaftLog) (i : Nat) : RaftLog :=
  { l with committed := max l.committed i }

/-- Modelled from the spec: `raft_log::maybe_commit(max_index, term)` —
"a leader may advance `committed` to N iff ... `log[N].term == current_term`"
(spec §4.D commit rule). Advances `committed` to `maxIndex` and reports
success iff that is an advance and the entry there has the given term. -/
def maybeCommitLog (l : RaftLog) (maxIndex term : Nat) : Bool × RaftLog :=
  if l.committed < maxIndex ∧ l.matchTerm maxIndex term then
    (true, l.commitTo maxIndex)
  else
    (false, l)

/-- Modelled from the spec: `append(entries)` — "if entries overlap the
existing suffix, truncate at the first divergence (same index, different
term) and append" (spec §4.C). -/
def truncAppend (l : RaftLog) : List Entry → RaftLog
  | [] => l
  | e :: rest =>
    if l.matchTerm e.index e.term then l.truncAppend rest
    else { l with entries := l.entries.filter (fun x => x.index < e.index) ++ (e :: rest) }

/-- Modelled from the spec: `maybe_append(prev_idx, prev_term, commit, ents)`
returns the new last index when the local log matches `(prev_idx, prev_term)`,
appending with truncation at the first divergence and fast-forwarding the
committed index to `min commit new_last`; `none` on mismatch (spec §4.C). -/
def maybeAppend (l : RaftLog) (prevIdx prevTerm commit : Nat) (es : List Entry) :
    Option (Nat × RaftLog) :=
  if l.matchTerm prevIdx prevTerm then
    let lastNew := prevIdx + es.length
    some (lastNew, (l.truncAppend es).commitTo (min commit lastNew))
  else
    none

/-- Modelled from the spec: `restore(snap)` replaces the log prefix `≤ index`
by the snapshot: the suffix empties and `committed` fast-forwards to the
snapshot index (spec §3 Snapshot, §4.D Snapshot). -/
def restoreSnap (snap : Snapshot) : RaftLog :=
  ⟨snap.meta.index, snap.meta.term, [], snap.meta.index⟩

/-- Modelled from the spec: the uncommitted suffix of the log,
`entries(committed + 1, NO_LIMIT)`. -/
def uncommittedEntries (l : RaftLog) : List Entry :=
  l.entries.filter (fun e => l.committed < e.index)

end RaftLog

/-- Message types of the raft proto that the embedded handlers use. -/
inductive MsgType where
  | msgHup
  | msgBeat
  | msgPropose
  | msgAppend
  | msgAppendResponse
  | msgRequestVote
  | msgRequestVoteResponse
  | msgSnapshot
  | msgHeartbeat
  | msgHeartbeatResponse
  | msgUnreachable
  | msgSnapStatus
  | msgCheckQuorum
deriving DecidableEq

/-- `proto::raftpb::Message`; `Message::new()` gives `Message.fresh` below
(all numeric fields 0, `reject` false, no entries, no snapshot). -/
structure Message where
  msgType : MsgType
  mto : Nat
  mfrom : Nat
  term : Nat
  index : Nat
  logTerm : Nat
  commit : Nat
  reject : Bool
  rejectHint : Nat
  entries : List Entry
  snapshot : Option Snapshot
deriving DecidableEq

/-- `Message::new()`. -/
def Message.fresh : Message :=
  ⟨.msgHup, 0, 0, 0, 0, 0, 0, false, 0, [], none⟩

/-- The raft peer state (`Raft<T>` in `raft.rs`): hard state, log, progress
map, role, vote tally, leader id, pending-conf flag and timers. The progress
and vote maps are association lists standing for the `HashMap`s. -/
structure RaftState where
  id : Nat
  hs : HardState
  raftLog : RaftLog
  prs : List (Nat × Progress)
  state : StateRole
  votes : List (Nat × Bool)
  lead : Nat
  pendingConf : Bool
  electionElapsed : Nat
  heartbeatElapsed : Nat
  electionTimeout : Nat
  heartbeatTimeout : Nat
deriving DecidableEq

namespace RaftState

/-- `Raft::quorum`: `prs.len() / 2 + 1`. -/
def quorum (r : RaftState) : Nat := r.prs.length / 2 + 1

/-- `Raft::send`: stamps the sender id, and the term except on `MsgPropose`. -/
def sendMsg (r : RaftState) (m : Message) : Message :=
  { m with
    mfrom := r.id
    term := if m.msgType = .msgPropose then m.term else r.hs.term }

/-- `Raft::maybe_commit` (raft.rs:402-413): collect every progress's `match`,
sort descending, take the entry at position `quorum - 1` (the quorum median)
and ask the log to commit to it at the current term. `none` models the
panic of indexing an empty vector (no progress entries). -/
def maybeCommit (r : RaftState) : Option (Bool × RaftState) :=
  match (List.insertionSort (· ≥ ·) (r.prs.map (fun p => p.2.matched)))[r.quorum - 1]? with
  | none => none
  | some mci =>
    some ((r.raftLog.maybeCommitLog mci r.hs.term).1,
      { r with raftLog := (r.raftLog.maybeCommitLog mci r.hs.term).2 })

/-- `Raft::reset(term)` (raft.rs:415-434): bump the term (clearing the vote
when it changes), clear leader and timers, empty the vote map, rebuild every
progress with `next = last_index + 1` (self additionally gets
`matched = last_index`), and clear `pending_conf`. -/
def reset (r : RaftState) (term : Nat) : RaftState :=
  let hs := if r.hs.term ≠ term then { r.hs with term := term, vote := 0 } else r.hs
  let lastIndex := r.raftLog.lastIndex
  { r with
    hs
    lead := 0
    electionElapsed := 0
    heartbeatElapsed := 0
    votes := []
    prs := r.prs.map (fun p =>
      (p.1, if p.1 = r.id then ⟨lastIndex, lastIndex + 1⟩ else Progress.new (lastIndex + 1)))
    pendingConf := false }

/-- `Raft::append_entry` (raft.rs:436-448): stamp the current term and
consecutive indices from `last_index + 1` onto the entries, append them,
update the leader's own progress, and try to commit. `none` models the
`unwrap` panic when the leader is not in its own progress map. -/
def appendEntry (r : RaftState) (es : List Entry) : Option RaftState :=
  let li := r.raftLog.lastIndex
  let stamped := (es.enum).map (fun p => { p.2 with term := r.hs.term, index := li + 1 + p.1 })
  let log := r.raftLog.truncAppend stamped
  match alookup r.prs r.id with
  | none => none
  | some p =>
    let p' := (p.maybeUpdate log.lastIndex).2
    let r' := { r with raftLog := log, prs := ainsert r.prs r.id p' }
    match r'.maybeCommit with
    | none => none
    | some res => some res.2

/-- `Raft::become_candidate` (raft.rs:502-511): asserts the peer is not a
leader (`none` models the assertion panic), resets at `term + 1`, votes for
itself and takes the candidate role. -/
def becomeCandidate (r : RaftState) : Option RaftState :=
  if r.state = .leader then none
  else
    let r1 := r.reset (r.hs.term + 1)
    some { r1 with hs := { r1.hs with vote := r1.id }, state := .candidate }

/-- `Raft::become_leader` (raft.rs:513-534): asserts the peer is not a
follower, resets at the current term, scans the uncommitted entries setting
`pending_conf` for a conf-change entry — asserting that there is no second
one ("unexpected double uncommitted config entry", modelled by `none`) —
and appends an empty entry. -/
def becomeLeader (r : RaftState) : Option RaftState :=
  if r.state = .follower then none
  else
    let r1 := r.reset r.hs.term
    let r2 : RaftState := { r1 with lead := r1.id, state := .leader }
    let confCount : Nat :=
      (r2.raftLog.uncommittedEntries.filter (fun e => decide (e.etype = .entryConfChange))).length
    if 2 ≤ confCount then none
    else ({ r2 with pendingConf := confCount == 1 }).appendEntry [Entry.fresh]

/-- `Raft::poll(id, v)` (raft.rs:566-582) as written in the source: it reads
`self.votes[&id]` through `HashMap`'s `Index` impl, which panics when `id`
has no entry yet (modelled by `none`); otherwise, when the stored flag is
false it overwrites it with `v`, and the granted votes are counted. -/
def poll (r : RaftState) (id : Nat) (v : Bool) : Option (Nat × RaftState) :=
  match alookup r.votes id with
  | none => none
  | some cur =>
    let votes := if ¬ cur then ainsert r.votes id v else r.votes
    some ((votes.filter (fun e => e.2 = true)).length, { r with votes })

/-- `Raft::campaign` (raft.rs:536-560): become candidate, record the vote
for self via `poll`, become leader on immediate quorum, else request votes.
The vote-request messages carry `(last_index, last_term)`. -/
def campaign (r : RaftState) : Option (RaftState × List Message) :=
  match r.becomeCandidate with
  | none => none
  | some r1 =>
    match r1.poll r1.id true with
    | none => none
    | some res =>
      let r2 := res.2
      if r2.quorum = res.1 then
        match r2.becomeLeader with
        | none => none
        | some r3 => some (r3, [])
      else
        let targets := (r2.prs.map Prod.fst).filter (fun id => id ≠ r2.id)
        let msgs := targets.map (fun id =>
          r2.sendMsg { Message.fresh with
            msgType := .msgRequestVote
            mto := id
            index := r2.raftLog.lastIndex
            logTerm := match r2.raftLog.termAt r2.raftLog.lastIndex with
              | some t => t
              | none => 0 })
        some (r2, msgs)

/-- The `MsgPropose` arm of `Raft::step_leader` (raft.rs:794-816): panics on
an empty proposal (`none`), drops the proposal when the leader is no longer
in its own progress map, rewrites conf-change entries to fresh normal
entries when `pending_conf` is set, and appends. The `bcast_append`
broadcast is elided (it does not touch the log or the flag). -/
def stepLeaderPropose (r : RaftState) (es : List Entry) : Option RaftState :=
  if es = [] then none
  else if (alookup r.prs r.id).isNone then some r
  else
    let es' :=
      if r.pendingConf then
        es.map (fun e =>
          if e.etype = .entryConfChange then { Entry.fresh with etype := .entryNormal } else e)
      else es
    r.appendEntry es'

/-- `Raft::add_node` (raft.rs:1079-1088): ignore a known id, otherwise add a
fresh progress at `next = last_index + 1`; clears `pending_conf`. -/
def addNode (r : RaftState) (id : Nat) : RaftState :=
  if (alookup r.prs id).isSome then r
  else
    { r with
      prs := ainsert r.prs id (Progress.new (r.raftLog.lastIndex + 1))
      pendingConf := false }

/-- `Raft::remove_node` (raft.rs:1090-1093): delete the progress and clear
`pending_conf`. -/
def removeNode (r : RaftState) (id : Nat) : RaftState :=
  { r with prs := r.prs.filter (fun e => e.1 ≠ id), pendingConf := false }

/-- `Raft::reset_pending_conf` (raft.rs:1095-1097). -/
def resetPendingConf (r : RaftState) : RaftState :=
  { r with pendingConf := false }

/-- `Raft::handle_append_entries` (raft.rs:941-976), returning the new state
and the messages sent. A stale append (`m.index < hs.commit`) answers with
the commit index on a fresh (non-reject) response and leaves everything
unchanged; otherwise `maybe_append` either acknowledges the new last index
or rejects with a hint at the local last index. -/
def handleAppendEntries (r : RaftState) (m : Message) : RaftState × List Message :=
  if m.index < r.hs.commit then
    (r, [r.sendMsg { Message.fresh with
      msgType := .msgAppendResponse
      mto := m.mfrom
      index := r.hs.commit }])
  else
    match r.raftLog.maybeAppend m.index m.logTerm m.commit m.entries with
    | some res =>
      ({ r with raftLog := res.2 },
       [r.sendMsg { Message.fresh with
         msgType := .msgAppendResponse
         mto := m.mfrom
         index := res.1 }])
    | none =>
      (r, [r.sendMsg { Message.fresh with
        msgType := .msgAppendResponse
        mto := m.mfrom
        index := m.index
        reject := true
        rejectHint := r.raftLog.lastIndex }])

/-- `Raft::restore_raft` (raft.rs:1019-1058): when the log already matches
the snapshot's `(index, term)` the commit index is fast-forwarded and
`Some(false)` is returned; otherwise the progress map is rebuilt from the
snapshot's conf state (self gets `matched = next - 1`, others 0) and `None`
is returned so that `restore` installs the snapshot. -/
def restoreRaft (r : RaftState) (snap : Snapshot) : RaftState × Option Bool :=
  if r.raftLog.matchTerm snap.meta.index snap.meta.term then
    ({ r with raftLog := r.raftLog.commitTo snap.meta.index }, some false)
  else
    ({ r with
        prs := snap.meta.nodes.map (fun n =>
          (n, (⟨if n = r.id then r.raftLog.lastIndex + 1 - 1 else 0,
                r.raftLog.lastIndex + 1⟩ : Progress))) },
      none)

/-- `Raft::restore` (raft.rs:1062-1071): reject a snapshot whose index is
below the committed index; delegate to `restore_raft`, and on `None`
replace the log by the snapshot and accept. -/
def restore (r : RaftState) (snap : Snapshot) : RaftState × Bool :=
  if snap.meta.index < r.raftLog.committed then (r, false)
  else
    match r.restoreRaft snap with
    | (r', some b) => (r', b)
    | (r', none) => ({ r' with raftLog := RaftLog.restoreSnap snap }, true)

end RaftState

/-- `Raft::is_election_timeout` (raft.rs:1127-1133) with the random draw
`rng.gen_range(0, election_timeout)` (a value in `[0, E)`) made an explicit
parameter: false while `elapsed < E`, else true iff `elapsed - E > draw`. -/
def isElectionTimeout (electionElapsed electionTimeout draw : Nat) : Bool :=
  if electionElapsed < electionTimeout then false
  else decide (draw < electionElapsed - electionTimeout)

/-- `Config` (raft.rs:32-80): the validated numeric fields. -/
structure RaftConfig where
  id : Nat
  electionTick : Nat
  heartbeatTick : Nat
  maxInflightMsgs : Nat
deriving DecidableEq

/-- `Config::validate` (raft.rs:83-103): id nonzero, heartbeat tick positive,
election tick strictly greater than heartbeat tick, in-flight bound positive. -/
def RaftConfig.validate (c : RaftConfig) : Except String Unit :=
  if c.id = 0 then .error "invalid node id"
  else if c.heartbeatTick = 0 then .error "heartbeat tick must greater than 0"
  else if c.electionTick ≤ c.heartbeatTick then
    .error "election tick must be greater than heartbeat tick"
  else if c.maxInflightMsgs = 0 then
    .error "max inflight messages must be greater than 0"
  else .ok ()

/-! ## Split checkers (`split_check/size.rs` and `split_check/half.rs`) -/

/-- A scanned key-value entry as seen by `SplitChecker::on_kv`: the internal
(data) key and `entry_size()`. -/
structure KeyEntry where
  key : KeyB
  entrySize : Nat
deriving DecidableEq

/-- The size-policy `Checker` of `split_check/size.rs`. -/
structure SizeChecker where
  maxSize : Nat
  splitSize : Nat
  currentSize : Nat
  splitKeysAcc : List KeyB
  batchSplitLimit : Nat
deriving DecidableEq

namespace SizeChecker

/-- `Checker::new(max_size, split_size, batch_split_limit, policy)`. -/
def new (maxSize splitSize batchSplitLimit : Nat) : SizeChecker :=
  ⟨maxSize, splitSize, 0, [], batchSplitLimit⟩

/-- `Checker::on_kv` (size.rs:52-73): accumulate the entry size; when the
accumulated size exceeds `split_size` and the batch limit is not reached,
record the (origin) key and restart the accumulator — keeping this entry's
size when the previous accumulated size was exactly `split_size`. Returns
the updated checker and the scan-stop flag. -/
def onKv (c : SizeChecker) (e : KeyEntry) : SizeChecker × Bool :=
  let size := e.entrySize
  let c1 : SizeChecker := { c with currentSize := c.currentSize + size }
  let overLimit := c.batchSplitLimit ≤ c1.splitKeysAcc.length
  if c1.splitSize < c1.currentSize ∧ ¬ overLimit then
    let c2 : SizeChecker :=
      { c1 with
        splitKeysAcc := c1.splitKeysAcc ++ [originKey e.key]
        currentSize := if c1.currentSize - size = c1.splitSize then size else 0 }
    let overLimit2 := c2.batchSplitLimit ≤ c2.splitKeysAcc.length
    (c2, overLimit2 ∧ c2.maxSize ≤ c2.currentSize + c2.splitSize)
  else
    (c1, overLimit ∧ c1.maxSize ≤ c1.currentSize + c1.splitSize)

/-- `Checker::split_keys` (size.rs:75-85): drop the last recorded split key
when the tail plus `split_size` is below `max_size`, and hand the keys out. -/
def splitKeysFin (c : SizeChecker) : List KeyB :=
  if c.currentSize + c.splitSize < c.maxSize then c.splitKeysAcc.dropLast
  else c.splitKeysAcc

/-- The split-check scan loop: feed entries to `on_kv` in key order, stopping
early when it returns true. -/
def run (c : SizeChecker) : List KeyEntry → SizeChecker
  | [] => c
  | e :: rest =>
    let res := c.onKv e
    if res.2 then res.1 else res.1.run rest

end SizeChecker

/-- The half-policy `Checker` of `split_check/half.rs`. -/
structure HalfChecker where
  buckets : List KeyB
  curBucketSize : Nat
  eachBucketSize : Nat
deriving DecidableEq

namespace HalfChecker

/-- `Checker::new(each_bucket_size, policy)` of half.rs. -/
def new (eachBucketSize : Nat) : HalfChecker := ⟨[], 0, eachBucketSize⟩

/-- `Checker::on_kv` (half.rs:42-49): start a new bucket with this entry's
key when there is none or the current one is full, then accumulate the entry
size. Never asks the scan to stop. -/
def onKv (c : HalfChecker) (e : KeyEntry) : HalfChecker × Bool :=
  let c1 : HalfChecker :=
    if c.buckets = [] ∨ c.eachBucketSize ≤ c.curBucketSize then
      { c with buckets := c.buckets ++ [e.key], curBucketSize := 0 }
    else c
  ({ c1 with curBucketSize := c1.curBucketSize + e.entrySize }, false)

/-- `Checker::split_keys` (half.rs:51-60): take the bucket key at position
`len / 2` (none when that position is 0) and strip the data prefix. -/
def splitKeysFin (c : HalfChecker) : List KeyB :=
  let mid := c.buckets.length / 2
  if mid = 0 then []
  else
    match c.buckets[mid]? with
    | some k => [originKey k]
    | none => []

/-- The scan loop for the half checker (its `on_kv` never stops the scan). -/
def run (c : HalfChecker) : List KeyEntry → HalfChecker
  | [] => c
  | e :: rest => ((c.onKv e).1).run rest

end HalfChecker

/-- `get_region_approximate_middle_cf` (half.rs:132-161) on the sampled keys
collected from the range properties: none when there are no samples, else
sort and take the key at position `(len - 1) / 2` — the left of the two
middle positions when the number of keys is even. -/
def approximateMiddle (ks : List KeyB) : Option KeyB :=
  if ks.isEmpty then none
  else
    let sorted := List.insertionSort (· ≤ ·) ks
    sorted[(sorted.length - 1) / 2]?

/-! ## MVCC transaction layer and transaction store
(`src/storage/txn/store.rs`; the `storage::mvcc` module itself is not under
`src/` and is modelled from spec §4.F) -/

/-- Modelled from the spec: lock/write kinds `{Put, Delete, Lock}` (§3). -/
inductive WriteKind where
  | put
  | delete
  | lock
deriving DecidableEq

/-- Modelled from the spec: a Lock CF record
`{primary, start_ts, ttl, kind}` (§3). -/
structure LockRec where
  primary : KeyB
  startTs : Nat
  ttl : Nat
  kind : WriteKind
deriving DecidableEq

/-- Modelled from the spec: a Write CF record `{start_ts, kind}` stored at
`key ⧺ commit_ts` (§3). -/
structure WriteRec where
  startTs : Nat
  kind : WriteKind
deriving DecidableEq

/-- Modelled from the spec: the three MVCC column families (§3): Lock CF
keyed by user key, Write CF keyed by `(user_key, commit_ts)`, Default CF
keyed by `(user_key, start_ts)`. -/
structure MvccState where
  lockCf : List (KeyB × LockRec)
  writeCf : List ((KeyB × Nat) × WriteRec)
  defaultCf : List ((KeyB × Nat) × KeyB)
deriving DecidableEq

/-- The empty engine. -/
def MvccState.empty : MvccState := ⟨[], [], []⟩

/-- Decidable equality for `Except` results, needed to evaluate the
scenarios. -/
instance {ε α : Type} [DecidableEq ε] [DecidableEq α] : DecidableEq (Except ε α) := fun x y =>
  match x, y with
  | .ok a, .ok b => if h : a = b then .isTrue (by simp [h]) else .isFalse (by simp [h])
  | .ok _, .error _ => .isFalse (by simp)
  | .error _, .ok _ => .isFalse (by simp)
  | .error a, .error b => if h : a = b then .isTrue (by simp [h]) else .isFalse (by simp [h])

/-- The transactional error kinds relevant to the claims (spec §7). -/
inductive MvccError where
  | keyIsLocked (primary : KeyB) (startTs : Nat) (key : KeyB) (ttl : Nat)
  | writeConflict
  | txnLockNotFound
deriving DecidableEq

/-- Modelled from the spec: a transactional mutation (§4.F). -/
inductive Mutation where
  | putM (key value : KeyB)
  | deleteM (key : KeyB)
  | lockM (key : KeyB)
deriving DecidableEq

/-- The key a mutation touches. -/
def Mutation.key : Mutation → KeyB
  | .putM k _ => k
  | .deleteM k => k
  | .lockM k => k

/-- The write kind a mutation stages. -/
def Mutation.kind : Mutation → WriteKind
  | .putM _ _ => .put
  | .deleteM _ => .delete
  | .lockM _ => .lock

/-- Modelled from the spec: the reverse scan of the Write CF from
`key ⧺ start_ts` downward (§4.F get, step 2): the writes of `key` with
`commit_ts ≤ start_ts`, ordered by descending commit timestamp. -/
def writeDesc (st : MvccState) (key : KeyB) (ts : Nat) : List (Nat × WriteRec) :=
  List.insertionSort (fun a b => a.1 ≥ b.1)
    ((st.writeCf.filter (fun e => e.1.1 = key ∧ e.1.2 ≤ ts)).map (fun e => (e.1.2, e.2)))

/-- Modelled from the spec (§4.F get, step 2): walk the writes newest first,
skipping `Lock` records, and stop at the first `Put` or `Delete`. -/
def firstVisible : List (Nat × WriteRec) → Option (Nat × WriteRec)
  | [] => none
  | (cts, w) :: rest => if w.kind = .lock then firstVisible rest else some (cts, w)

/-- Modelled from the spec: steps 2 and 3 of `MvccTxn::get` (§4.F): the
newest non-`Lock` write with `commit_ts ≤ start_ts` decides — a `Put` reads
the Default CF at `key ⧺ write.start_ts`, a `Delete` (or no write) gives
`none`. -/
def mvccResolve (st : MvccState) (key : KeyB) (ts : Nat) : Except MvccError (Option KeyB) :=
  match firstVisible (writeDesc st key ts) with
  | none => .ok none
  | some (_, w) =>
    if w.kind = .put then .ok (alookup st.defaultCf (key, w.startTs)) else .ok none

/-- Modelled from the spec: `MvccTxn::get(key)` at `start_ts` (§4.F): fail
`KeyIsLocked` on a lock with `lock.start_ts ≤ start_ts`, else resolve via
the write scan. -/
def mvccGet (st : MvccState) (key : KeyB) (ts : Nat) : Except MvccError (Option KeyB) :=
  match alookup st.lockCf key with
  | some l =>
    if l.startTs ≤ ts then .error (.keyIsLocked l.primary l.startTs key l.ttl)
    else mvccResolve st key ts
  | none => mvccResolve st key ts

/-- Modelled from the spec: `MvccTxn::prewrite(mutation, primary)` (§4.F):
reject a write with `commit_ts ≥ start_ts` (write-write conflict), reject a
foreign lock, else stage the lock (and the Default CF value for a `Put`). -/
def mvccPrewrite (st : MvccState) (m : Mutation) (primary : KeyB) (startTs ttl : Nat) :
    Except MvccError MvccState :=
  let key := m.key
  let stage : MvccState :=
    let st1 : MvccState :=
      { st with lockCf := ainsert st.lockCf key ⟨primary, startTs, ttl, m.kind⟩ }
    match m with
    | .putM k v => { st1 with defaultCf := ainsert st1.defaultCf (k, startTs) v }
    | _ => st1
  if st.writeCf.any (fun e => e.1.1 = key ∧ startTs ≤ e.1.2) then .error .writeConflict
  else
    match alookup st.lockCf key with
    | some l =>
      if l.startTs = startTs then .ok stage
      else .error (.keyIsLocked l.primary l.startTs key l.ttl)
    | none => .ok stage

/-- Modelled from the spec: `MvccTxn::commit(key, commit_ts)` (§4.F): with a
matching lock, stage the Write CF record `{start_ts, kind}` at `commit_ts`
and delete the lock; without one, succeed idempotently when a write with
this `start_ts` already exists, else fail `TxnLockNotFound`. -/
def mvccCommit (st : MvccState) (key : KeyB) (startTs commitTs : Nat) :
    Except MvccError MvccState :=
  let idem : Except MvccError MvccState :=
    if st.writeCf.any (fun e => e.1.1 = key ∧ e.2.startTs = startTs) then .ok st
    else .error .txnLockNotFound
  match alookup st.lockCf key with
  | some l =>
    if l.startTs = startTs then
      .ok { st with
        writeCf := ainsert st.writeCf (key, commitTs) ⟨startTs, l.kind⟩
        lockCf := st.lockCf.filter (fun e => e.1 ≠ key) }
    else idem
  | none => idem

/-- `TxnStore::get` (store.rs:23-27): lock the key's stripe, open an
`MvccTxn` at `start_ts` and delegate; the stripe lock is concurrency control
and invisible here. -/
def txnStoreGet (st : MvccState) (key : KeyB) (startTs : Nat) :
    Except MvccError (Option KeyB) :=
  mvccGet st key startTs

/-- One result slot of `TxnStore::scan`: `Ok((key, value))` or a per-key
error (store.rs pushes `Err` into the result vector). -/
abbrev ScanItem := Except MvccError (KeyB × KeyB)

/-- Modelled from the spec: the engine index of user keys, ascending; and
`Engine::seek` (spec §4.A scan interface): the first engine key at or after
the target. The byte-codec round trip `decode ∘ encode = id` and the
order preservation of `encode_bytes` are assumed by using user keys
directly. -/
def seekKey (eng : List KeyB) (target : KeyB) : Option KeyB :=
  eng.find? (fun k => decide (target ≤ k))

/-- The loop body of `TxnStore::scan` (store.rs:44-60), fuelled: while fewer
than `limit` results, seek the next key at or after the cursor; stop when
the engine is exhausted; apply `MvccTxn::get` visibility to the found key,
recording `Ok((key, value))` or a per-key error and skipping invisible keys;
then continue from `key ⧺ '\0'`. The fuel only bounds the recursion; a fuel
of `eng.length + 1` never runs out before the loop breaks. -/
def txnScanLoop (st : MvccState) (eng : List KeyB) (ts limit : Nat) :
    Nat → KeyB → List ScanItem → List ScanItem
  | 0, _, acc => acc
  | fuel + 1, key, acc =>
    if acc.length < limit then
      match seekKey eng key with
      | none => acc
      | some nextKey =>
        let acc' :=
          match mvccGet st nextKey ts with
          | .ok (some v) => acc ++ [.ok (nextKey, v)]
          | .ok none => acc
          | .error e => acc ++ [.error e]
        txnScanLoop st eng ts limit fuel (nextKey ++ [0]) acc'
    else acc

/-- `TxnStore::scan(key, limit, start_ts)` (store.rs:40-62). The model's
engine cannot fail, so the surrounding `Result` is always `Ok` and elided:
the returned list is the `Ok` payload. -/
def txnStoreScan (st : MvccState) (eng : List KeyB) (key : KeyB) (limit ts : Nat) :
    List ScanItem :=
  txnScanLoop st eng ts limit (eng.length + 1) key []

/-- The keys of the successful results of a scan, in order. -/
def okKeys : List ScanItem → List KeyB :=
  List.filterMap (fun item => match item with | .ok kv => some kv.1 | .error _ => none)

/-- The number of uncommitted conf-change entries in a peer's log. -/
def uncommittedConfChangeCount (r : RaftState) : Nat :=
  (r.raftLog.uncommittedEntries.filter (fun e => decide (e.etype = .entryConfChange))).length

/-- Sorting write records by descending commit timestamp is total. -/
instance : IsTotal (Nat × WriteRec) (fun a b => a.1 ≥ b.1) :=
  ⟨fun a b => le_total b.1 a.1⟩

/-- Sorting write records by descending commit timestamp is transitive. -/
instance : IsTrans (Nat × WriteRec) (fun a b => a.1 ≥ b.1) :=
  ⟨fun _ _ _ h1 h2 => le_trans h2 h1⟩

/-! ## Concrete states used by the scenarios, witnesses and counterexamples -/

/-- A two-peer leader at term 1 with one committed-at-0 normal entry; peer 2
has not acknowledged anything yet. -/
def c4Leader : RaftState :=
  { id := 1
    hs := ⟨1, 1, 0⟩
    raftLog := ⟨0, 0, [⟨1, 1, .entryNormal⟩], 0⟩
    prs := [(1, ⟨1, 2⟩), (2, ⟨0, 2⟩)]
    state := .leader
    votes := []
    lead := 1
    pendingConf := false
    electionElapsed := 0
    heartbeatElapsed := 0
    electionTimeout := 10
    heartbeatTimeout := 1 }

/-- A conf-change proposal entry as a client submits it. -/
def ccProp : Entry := ⟨0, 0, .entryConfChange⟩

/-- A three-peer leader whose entry 2 (current term) is matched by a quorum. -/
def c1St : RaftState :=
  { c4Leader with
    raftLog := ⟨0, 0, [⟨1, 1, .entryNormal⟩, ⟨1, 2, .entryNormal⟩], 0⟩
    prs := [(1, ⟨2, 3⟩), (2, ⟨2, 3⟩), (3, ⟨0, 1⟩)] }

/-- `c1St` after its quorum-median commit advance. -/
def c1StAfter : RaftState :=
  { c1St with raftLog := { c1St.raftLog with committed := 2 } }

/-- A follower whose log has entry 1 at term 1, already committed. -/
def c2St : RaftState :=
  { c4Leader with
    state := .follower
    hs := ⟨1, 0, 1⟩
    raftLog := ⟨0, 0, [⟨1, 1, .entryNormal⟩], 1⟩ }

/-- A snapshot whose index equals `c2St`'s committed index but whose term
disagrees with the log entry there. -/
def c2Snap : Snapshot := ⟨⟨1, 2, [1, 2]⟩⟩

/-- A follower with commit 1 receiving messages. -/
def c10St : RaftState := { c4Leader with hs := ⟨1, 1, 1⟩, state := .follower }

/-- A stale append: its previous-log index 0 is below `c10St`'s commit 1. -/
def c10Msg : Message := { Message.fresh with msgType := .msgAppend, mfrom := 2, index := 0 }

/-- Ten uniformly sized scan entries (each of size 10) over data keys
`z00 .. z09`, total size 100. -/
def c7Entries : List KeyEntry := (List.range 10).map (fun i => ⟨[122, i], 10⟩)

/-- Eleven sampled data keys, one per SST, listed largest first. -/
def c8Keys11 : List KeyB := ((List.range 11).reverse).map (fun i => [122, 0, i])

/-- The MVCC state after `put("x", "v")` with `start_ts 5`, `commit_ts 10`
(the prewrite + commit pipeline of the store), when both steps succeed. -/
def c5State : Option MvccState :=
  match mvccPrewrite MvccState.empty (.putM [120] [118]) [120] 5 0 with
  | .ok st1 =>
    match mvccCommit st1 [120] 5 10 with
    | .ok st2 => some st2
    | .error _ => none
  | .error _ => none

/-- The committed single-put state, explicitly: one write record for key
`x` at commit timestamp 10, and its value in the Default CF at start
timestamp 5. -/
def c5Committed : MvccState :=
  ⟨[], [(([120], 10), ⟨5, .put⟩)], [(([120], 5), [118])]⟩

/-! ## Theorems -/

/-- In a descending-sorted list of naturals, at least `i + 1` elements are
at or above the element found at position `i`. -/
theorem sorted_desc_countP_ge (l : List Nat) (i x : Nat)
    (hs : List.Sorted (· ≥ ·) l) (hx : l[i]? = some x) :
    i + 1 ≤ l.countP (fun m => decide (x ≤ m)) := by
  have hi : i < l.length := by
    rcases Nat.lt_or_ge i l.length with h | h
    · exact h
    · rw [List.getElem?_eq_none h] at hx; cases hx
  have hgx : l[i] = x := by
    rw [List.getElem?_eq_getElem hi] at hx
    exact Option.some.inj hx
  have htake : ∀ a ∈ l.take (i + 1), (fun m => decide (x ≤ m)) a = true := by
    intro a ha
    rw [List.mem_take_iff_getElem] at ha
    obtain ⟨j, hj, rfl⟩ := ha
    have hj' : j < l.length := by omega
    have hji : (⟨j, hj'⟩ : Fin l.length) ≤ ⟨i, hi⟩ := by
      simp only [Fin.mk_le_mk]; omega
    have hrel := List.Sorted.rel_get_of_le hs hji
    simp only [List.get_eq_getElem] at hrel
    have hxle : x ≤ l[j] := by rw [← hgx]; exact hrel
    simpa using hxle
  calc i + 1 = (l.take (i + 1)).length := by rw [List.length_take]; omega
    _ = (l.take (i + 1)).countP (fun m => decide (x ≤ m)) :=
        (List.countP_eq_length.mpr htake).symm
    _ ≤ l.countP (fun m => decide (x ≤ m)) :=
        List.Sublist.countP_le _ (List.take_sublist _ _)

/-- C1: for every leader state, `maybe_commit` advances the committed index
only to the quorum-median N of the `match` values — an index that at least
a quorum of progress entries have matched — and the advance succeeds only
when the log entry at N carries the leader's current term, so an entry from
an earlier term is never committed directly; when the advance fails, the
committed index is unchanged. -/
theorem maybeCommit_quorum_median_current_term (r : RaftState) (ok : Bool) (r' : RaftState)
    (_hleader : r.state = .leader)
    (heq : r.maybeCommit = some (ok, r')) :
    (ok = true →
      ∃ N,
        (List.insertionSort (· ≥ ·) (r.prs.map (fun p => p.2.matched)))[r.quorum - 1]? =
          some N ∧
        r'.raftLog.committed = N ∧
        r.raftLog.committed < N ∧
        r.quorum ≤ (r.prs.filter (fun p => decide (N ≤ p.2.matched))).length ∧
        r.raftLog.termAt N = some r.hs.term) ∧
    (ok = false → r'.raftLog.committed = r.raftLog.committed) := by
  unfold RaftState.maybeCommit at heq
  cases hidx : (List.insertionSort (· ≥ ·) (r.prs.map (fun p => p.2.matched)))[r.quorum - 1]? with
  | none => rw [hidx] at heq; cases heq
  | some mci =>
    rw [hidx] at heq
    simp only [] at heq
    have hpair := Option.some.inj heq
    have hok : (r.raftLog.maybeCommitLog mci r.hs.term).1 = ok := congrArg Prod.fst hpair
    have hr' : ({ r with raftLog := (r.raftLog.maybeCommitLog mci r.hs.term).2 } : RaftState) = r' :=
      congrArg Prod.snd hpair
    unfold RaftLog.maybeCommitLog at hok hr'
    by_cases hc : r.raftLog.committed < mci ∧ r.raftLog.matchTerm mci r.hs.term
    · rw [if_pos hc] at hok hr'
      refine ⟨fun _ => ⟨mci, rfl, ?_, hc.1, ?_, ?_⟩, fun hfalse => by
        rw [← hok] at hfalse; cases hfalse⟩
      · rw [← hr']
        show max r.raftLog.committed mci = mci
        exact Nat.max_eq_right (Nat.le_of_lt hc.1)
      · have hcnt := sorted_desc_countP_ge _ (r.quorum - 1) mci
          (List.sorted_insertionSort _ _) hidx
        have hq1 : r.quorum - 1 + 1 = r.quorum := by
          have : 0 < r.quorum := Nat.succ_pos _
          omega
        rw [hq1] at hcnt
        have hperm := (List.perm_insertionSort (· ≥ ·)
          (r.prs.map (fun p => p.2.matched))).countP_eq (fun m => decide (mci ≤ m))
        rw [hperm] at hcnt
        rw [List.countP_map] at hcnt
        rw [← List.countP_eq_length_filter]
        exact hcnt
      · have := hc.2
        unfold RaftLog.matchTerm at this
        exact of_decide_eq_true this
    · rw [if_neg hc] at hok hr'
      refine ⟨fun htrue => (by rw [← hok] at htrue; cases htrue), fun _ => ?_⟩
      rw [← hr']

/-- Concrete application of the C1 theorem: on a three-peer leader whose
entry 2 (current term) is matched by itself and peer 2, the commit advances
to the quorum median 2 and all the conditions evaluate. -/
theorem maybeCommit_quorum_median_current_term_witness :
    ∃ N,
      (List.insertionSort (· ≥ ·) (c1St.prs.map (fun p => p.2.matched)))[c1St.quorum - 1]? =
        some N ∧
      c1StAfter.raftLog.committed = N ∧
      c1St.raftLog.committed < N ∧
      c1St.quorum ≤ (c1St.prs.filter (fun p => decide (N ≤ p.2.matched))).length ∧
      c1St.raftLog.termAt N = some c1St.hs.term :=
  (maybeCommit_quorum_median_current_term c1St true c1StAfter (by decide) (by decide)).1 rfl

/-- C3: starting an election is never total in this code: `campaign` always
panics, because `poll` reads `self.votes[&id]` through `HashMap`'s `Index`
impl on a vote map that `reset` (called by `become_candidate`) has just
emptied, so the very first recorded vote — the candidate's vote for itself —
indexes a missing key. -/
theorem campaign_always_panics (r : RaftState) : r.campaign = none := by
  unfold RaftState.campaign
  by_cases h : r.state = .leader
  · simp [RaftState.becomeCandidate, h]
  · simp [RaftState.becomeCandidate, h, RaftState.poll, RaftState.reset, alookup]

/-- C4: a leader with a clear pending-conf flag appends a proposed
conf-change entry without setting the flag, so a second conf-change
proposal is appended verbatim as well: the log then carries two uncommitted
conf-change entries, the very state whose assertion in `become_leader`
("unexpected double uncommitted config entry") panics on the next
leadership change. -/
theorem propose_conf_change_leaves_flag_clear :
    (c4Leader.stepLeaderPropose [ccProp]).map RaftState.pendingConf = some false ∧
    ((c4Leader.stepLeaderPropose [ccProp]).bind
        (fun s1 => s1.stepLeaderPropose [ccProp])).map uncommittedConfChangeCount = some 2 ∧
    ((c4Leader.stepLeaderPropose [ccProp]).bind
        (fun s1 => s1.stepLeaderPropose [ccProp])).map
          (fun s2 => ({ s2 with state := .candidate } : RaftState).becomeLeader) =
      some none := by decide

/-- C6 counterexample: with election tick E = 10 and election_elapsed
exactly E, `is_election_timeout` is false for every possible random draw
(the draw is a value below E), refuting that it returns true for some
random draw at `election_elapsed = E`. -/
theorem election_timeout_never_fires_at_exactly_E :
    ¬ ∃ d, d < 10 ∧ isElectionTimeout 10 10 d = true := by decide

/-- C6 amended: the effective randomized election timeout lies in
[E + 1, 2E]: `is_election_timeout` is false for every draw while
`election_elapsed ≤ E`, true for some draw (draw 0) as soon as
`election_elapsed > E`, and true for every draw once
`election_elapsed ≥ 2E`; and `Config::validate` rejects every configuration
with `election_tick ≤ heartbeat_tick`. -/
theorem election_timeout_effective_window (E elapsed d : Nat) (_hE : 0 < E) (hd : d < E) :
    (elapsed ≤ E → isElectionTimeout elapsed E d = false) ∧
    (E < elapsed → isElectionTimeout elapsed E 0 = true) ∧
    (2 * E ≤ elapsed → isElectionTimeout elapsed E d = true) ∧
    (∀ c : RaftConfig, c.electionTick ≤ c.heartbeatTick → c.validate ≠ .ok ()) := by
  refine ⟨?_, ?_, ?_, ?_⟩
  · intro h
    unfold isElectionTimeout
    by_cases h2 : elapsed < E
    · rw [if_pos h2]
    · rw [if_neg h2]
      have : elapsed - E = 0 := by omega
      rw [this]
      simp
  · intro h
    unfold isElectionTimeout
    rw [if_neg (by omega)]
    simp
    omega
  · intro h
    unfold isElectionTimeout
    rw [if_neg (by omega)]
    simp
    omega
  · intro c hc hok
    unfold RaftConfig.validate at hok
    split_ifs at hok

/-- Concrete application of the C6 amended theorem: with E = 2 the timeout
fires for every draw at elapsed = 4 = 2E. -/
theorem election_timeout_effective_window_witness :
    isElectionTimeout 4 2 1 = true :=
  ((election_timeout_effective_window 2 4 1 (by decide) (by decide)).2.2.1 (by decide))

/-- C10: an incoming append whose previous-log index is below the peer's
hard-state commit leaves the peer's state (its log included) completely
unchanged and produces exactly one `MsgAppendResponse` carrying the commit
index with the reject flag unset. -/
theorem stale_append_acks_commit_without_change (r : RaftState) (m : Message)
    (h : m.index < r.hs.commit) :
    (r.handleAppendEntries m).1 = r ∧
    ((r.handleAppendEntries m).2.map Message.index) = [r.hs.commit] ∧
    ((r.handleAppendEntries m).2.map Message.reject) = [false] ∧
    ((r.handleAppendEntries m).2.map Message.msgType) = [.msgAppendResponse] ∧
    ((r.handleAppendEntries m).2.map Message.mto) = [m.mfrom] := by
  unfold RaftState.handleAppendEntries
  rw [if_pos h]
  simp [RaftState.sendMsg, Message.fresh]

/-- Concrete application of the C10 theorem: a follower with commit 1
receiving an append at previous-log index 0. -/
theorem stale_append_acks_commit_without_change_witness :
    (c10St.handleAppendEntries c10Msg).1 = c10St ∧
    ((c10St.handleAppendEntries c10Msg).2.map Message.index) = [c10St.hs.commit] :=
  ⟨(stale_append_acks_commit_without_change c10St c10Msg (by decide)).1,
   (stale_append_acks_commit_without_change c10St c10Msg (by decide)).2.1⟩

/-- C2 counterexample: a snapshot whose index equals the follower's
committed index (with a term that does not match the log entry there) is
accepted and installed, refuting that installation happens only for
`snapshot.index > committed`. -/
theorem restore_installs_snapshot_at_committed_index :
    (c2St.restore c2Snap).2 = true ∧ ¬ c2St.raftLog.committed < c2Snap.meta.index := by decide

/-- Case analysis of `restore`: reject below the committed index; only
fast-forward on a matching (index, term); otherwise install, replacing the
peer set by the snapshot's conf state. -/
theorem restore_cases (r : RaftState) (snap : Snapshot) :
    (snap.meta.index < r.raftLog.committed ∧ r.restore snap = (r, false)) ∨
    (¬ snap.meta.index < r.raftLog.committed ∧
      r.raftLog.matchTerm snap.meta.index snap.meta.term = true ∧
      r.restore snap = ({ r with raftLog := r.raftLog.commitTo snap.meta.index }, false)) ∨
    (¬ snap.meta.index < r.raftLog.committed ∧
      r.raftLog.matchTerm snap.meta.index snap.meta.term = false ∧
      r.restore snap =
        ({ r with
            raftLog := RaftLog.restoreSnap snap
            prs := snap.meta.nodes.map (fun n =>
              (n, (⟨if n = r.id then r.raftLog.lastIndex + 1 - 1 else 0,
                    r.raftLog.lastIndex + 1⟩ : Progress))) },
          true)) := by
  by_cases h1 : snap.meta.index < r.raftLog.committed
  · refine Or.inl ⟨h1, ?_⟩
    unfold RaftState.restore
    rw [if_pos h1]
  · by_cases h2 : r.raftLog.matchTerm snap.meta.index snap.meta.term = true
    · refine Or.inr (Or.inl ⟨h1, h2, ?_⟩)
      unfold RaftState.restore RaftState.restoreRaft
      rw [if_neg h1, if_pos h2]
    · refine Or.inr (Or.inr ⟨h1, by simpa using h2, ?_⟩)
      unfold RaftState.restore RaftState.restoreRaft
      rw [if_neg h1, if_neg h2]

/-- C2 amended: `restore` accepts and installs the snapshot iff
`snapshot.index ≥ committed` and the log has no entry matching the
snapshot's (index, term); on installation the log is replaced by the
snapshot (committed fast-forwarded to its index) and the peer set is
replaced by the snapshot's conf state; when the log does match
(index, term) and the index is not below committed, the snapshot is not
installed and the peer only fast-forwards its committed index. -/
theorem restore_accepts_iff_geq_and_no_match (r : RaftState) (snap : Snapshot) :
    ((r.restore snap).2 = true ↔
      r.raftLog.committed ≤ snap.meta.index ∧
        r.raftLog.matchTerm snap.meta.index snap.meta.term = false) ∧
    ((r.restore snap).2 = true →
      (r.restore snap).1.raftLog = RaftLog.restoreSnap snap ∧
      (r.restore snap).1.raftLog.committed = snap.meta.index ∧
      ((r.restore snap).1.prs.map Prod.fst) = snap.meta.nodes) ∧
    (r.raftLog.committed ≤ snap.meta.index →
      r.raftLog.matchTerm snap.meta.index snap.meta.term = true →
      (r.restore snap).2 = false ∧
      (r.restore snap).1.raftLog.committed = max r.raftLog.committed snap.meta.index ∧
      (r.restore snap).1.raftLog.entries = r.raftLog.entries ∧
      (r.restore snap).1.prs = r.prs) := by
  rcases restore_cases r snap with ⟨h1, heq⟩ | ⟨h1, h2, heq⟩ | ⟨h1, h2, heq⟩ <;> rw [heq]
  · refine ⟨⟨fun hf => (by cases hf), fun hrhs => absurd hrhs.1 (by omega)⟩,
      fun hf => (by cases hf), fun hle _ => absurd h1 (by omega)⟩
  · refine ⟨⟨fun hf => (by cases hf), fun hrhs => (by rw [h2] at hrhs; cases hrhs.2)⟩,
      fun hf => (by cases hf), fun _ _ => ⟨rfl, rfl, rfl, rfl⟩⟩
  · refine ⟨⟨fun _ => ⟨by omega, h2⟩, fun _ => rfl⟩, fun _ => ⟨rfl, rfl, ?_⟩,
      fun _ hmt => (by rw [h2] at hmt; cases hmt)⟩
    simp [List.map_map, Function.comp_def]

/-- Concrete application of the C2 amended theorem: `c2Snap` is installed on
`c2St` because its index is not below the committed index and the terms
disagree. -/
theorem restore_accepts_iff_geq_and_no_match_witness :
    (c2St.restore c2Snap).2 = true :=
  (restore_accepts_iff_geq_and_no_match c2St c2Snap).1.mpr (by decide)

/-- C7: with max_size 100, split_size 60 and batch_split_limit 5, the
Scan-policy size checker over ten uniformly sized keys (total size 100, at
least max_size) produces exactly one split key, the key at 0-based position
6; in general `on_kv` records a split key exactly when the accumulated size
first exceeds `split_size` while the batch limit is not reached, and
`split_keys` drops the last recorded key exactly when the remaining tail
size plus `split_size` is below `max_size`. -/
theorem size_checker_split_rules (c : SizeChecker) (e : KeyEntry) :
    ((c7Entries.map KeyEntry.entrySize).sum = 100 ∧
      (SizeChecker.run (SizeChecker.new 100 60 5) c7Entries).splitKeysFin =
        [originKey [122, 6]]) ∧
    (((c.onKv e).1).splitKeysAcc =
      if c.splitSize < c.currentSize + e.entrySize ∧
          c.splitKeysAcc.length < c.batchSplitLimit then
        c.splitKeysAcc ++ [originKey e.key]
      else c.splitKeysAcc) ∧
    (c.splitKeysFin =
      if c.currentSize + c.splitSize < c.maxSize then c.splitKeysAcc.dropLast
      else c.splitKeysAcc) := by
  refine ⟨by decide, ?_, rfl⟩
  simp only [SizeChecker.onKv]
  split_ifs with h1 h2 h3 <;> first | rfl | (exfalso; omega)

/-- C8 counterexample: on the Scan-policy bucket path of the half checker,
two equal-size buckets make `split_keys` return the bucket at index
`len / 2` — the larger of the two middle choices, not the smaller. -/
theorem half_scan_bucket_picks_larger_middle :
    (HalfChecker.run (HalfChecker.new 1) [⟨[122, 0], 5⟩, ⟨[122, 1], 5⟩]).splitKeysFin = [[1]] ∧
    ¬ ([1] : KeyB) ≤ [0] := by decide

/-- C8 amended: a half split produces at most one split key; on the
approximate-sample path the key at position `(n - 1) / 2` of the sorted
samples is chosen — for 11 per-SST keys the key at 0-based index 5, and the
smaller of the two middle choices when n is even — while the Scan-policy
bucket path takes the bucket at position `n / 2`, the larger of the two
middle choices when n is even, and produces no key with fewer than two
buckets. -/
theorem half_split_middle_selection (c : HalfChecker) (ks : List KeyB) (k : KeyB) :
    (c.splitKeysFin.length ≤ 1) ∧
    (approximateMiddle c8Keys11 = some [122, 0, 5]) ∧
    (ks ≠ [] →
      approximateMiddle ks = (List.insertionSort (· ≤ ·) ks)[(ks.length - 1) / 2]?) ∧
    (ks.length % 2 = 0 → ∀ a b,
      (List.insertionSort (· ≤ ·) ks)[(ks.length - 1) / 2]? = some a →
      (List.insertionSort (· ≤ ·) ks)[ks.length / 2]? = some b →
      approximateMiddle ks = some a ∧ a ≤ b) ∧
    (c.buckets.length ≤ 1 → c.splitKeysFin = []) ∧
    (c.buckets.length / 2 ≠ 0 → c.buckets[c.buckets.length / 2]? = some k →
      c.splitKeysFin = [originKey k]) := by
  have hmid : ∀ l : List KeyB, l ≠ [] →
      approximateMiddle l = (List.insertionSort (· ≤ ·) l)[(l.length - 1) / 2]? := by
    intro l hne
    unfold approximateMiddle
    rw [if_neg (by simpa [List.isEmpty_iff] using hne)]
    show (List.insertionSort (· ≤ ·) l)[((List.insertionSort (· ≤ ·) l).length - 1) / 2]? =
      (List.insertionSort (· ≤ ·) l)[(l.length - 1) / 2]?
    rw [(List.perm_insertionSort (· ≤ ·) l).length_eq]
  refine ⟨?_, by decide, hmid ks, ?_, ?_, ?_⟩
  · simp only [HalfChecker.splitKeysFin]
    by_cases h : c.buckets.length / 2 = 0
    · simp [h]
    · rw [if_neg h]
      cases c.buckets[c.buckets.length / 2]? <;> simp
  · intro he a b ha hb
    have hlen := (List.perm_insertionSort (· ≤ ·) ks).length_eq
    have hb' : ks.length / 2 < ks.length := by
      rcases Nat.lt_or_ge (ks.length / 2) ks.length with h | h
      · exact h
      · rw [List.getElem?_eq_none (by omega)] at hb; cases hb
    have hne : ks ≠ [] := by
      intro hnil
      rw [hnil] at hb'
      simp at hb'
    have hlen2 : 2 ≤ ks.length := by omega
    have hi12 : (ks.length - 1) / 2 < ks.length / 2 := by omega
    have ha' : (ks.length - 1) / 2 < ks.length := by omega
    refine ⟨by rw [hmid ks hne, ha], ?_⟩
    have hsorted := List.sorted_insertionSort (· ≤ ·) ks
    have hla : (ks.length - 1) / 2 < (List.insertionSort (· ≤ ·) ks).length := by omega
    have hlb : ks.length / 2 < (List.insertionSort (· ≤ ·) ks).length := by omega
    have hga : (List.insertionSort (· ≤ ·) ks)[(ks.length - 1) / 2] = a := by
      rw [List.getElem?_eq_getElem hla] at ha
      exact Option.some.inj ha
    have hgb : (List.insertionSort (· ≤ ·) ks)[ks.length / 2] = b := by
      rw [List.getElem?_eq_getElem hlb] at hb
      exact Option.some.inj hb
    have hrel := List.Sorted.rel_get_of_lt hsorted
      (a := ⟨(ks.length - 1) / 2, by omega⟩) (b := ⟨ks.length / 2, by omega⟩)
      (by simp only [Fin.mk_lt_mk]; omega)
    simp only [List.get_eq_getElem] at hrel
    rw [hga, hgb] at hrel
    exact hrel
  · intro h
    simp only [HalfChecker.splitKeysFin]
    rw [if_pos (by omega)]
  · intro h hk
    simp only [HalfChecker.splitKeysFin]
    rw [if_neg h, hk]

/-- Concrete application of the C8 amended theorem: on the two sorted even
samples the approximate path returns the smaller middle. -/
theorem half_split_middle_selection_witness :
    approximateMiddle [[0], [1]] = some [0] ∧ ([0] : KeyB) ≤ [1] :=
  (half_split_middle_selection ⟨[], 0, 1⟩ [[0], [1]] []).2.2.2.1 (by decide)
    [0] [1] (by decide) (by decide)

/-- Membership in the descending write scan of a key. -/
theorem mem_writeDesc (st : MvccState) (key : KeyB) (ts cts : Nat) (w : WriteRec) :
    (cts, w) ∈ writeDesc st key ts ↔ ((key, cts), w) ∈ st.writeCf ∧ cts ≤ ts := by
  unfold writeDesc
  rw [(List.perm_insertionSort _ _).mem_iff]
  simp only [List.mem_map, List.mem_filter, decide_eq_true_eq]
  constructor
  · rintro ⟨⟨⟨ek, ects⟩, ew⟩, ⟨hmem, hkey, hle⟩, heq⟩
    injection heq with h1 h2
    subst h1
    subst h2
    subst hkey
    exact ⟨hmem, hle⟩
  · rintro ⟨hmem, hle⟩
    exact ⟨((key, cts), w), ⟨hmem, rfl, hle⟩, rfl⟩

/-- A scan with no visible record has only `Lock` records. -/
theorem firstVisible_none (l : List (Nat × WriteRec)) :
    firstVisible l = none → ∀ x ∈ l, x.2.kind = .lock := by
  induction l with
  | nil => intro _ x hx; cases hx
  | cons hd tl ih =>
    intro h x hx
    obtain ⟨c0, w0⟩ := hd
    unfold firstVisible at h
    by_cases hk : w0.kind = .lock
    · rw [if_pos hk] at h
      rcases List.mem_cons.mp hx with heq | hxtl
      · rw [heq]; exact hk
      · exact ih h x hxtl
    · rw [if_neg hk] at h; cases h

/-- The record a scan stops at is a non-`Lock` member of the list. -/
theorem firstVisible_some (l : List (Nat × WriteRec)) (cts : Nat) (w : WriteRec) :
    firstVisible l = some (cts, w) → (cts, w) ∈ l ∧ w.kind ≠ .lock := by
  induction l with
  | nil => intro h; cases h
  | cons hd tl ih =>
    intro h
    obtain ⟨c0, w0⟩ := hd
    unfold firstVisible at h
    by_cases hk : w0.kind = .lock
    · rw [if_pos hk] at h
      obtain ⟨hmem, hnk⟩ := ih h
      exact ⟨List.mem_cons_of_mem _ hmem, hnk⟩
    · rw [if_neg hk] at h
      injection Option.some.inj h with h1 h2
      subst h1
      subst h2
      exact ⟨List.mem_cons_self _ _, hk⟩

/-- On a list sorted by descending commit timestamp, the record a scan stops
at has the greatest commit timestamp among all non-`Lock` members. -/
theorem firstVisible_max (l : List (Nat × WriteRec)) :
    l.Sorted (fun a b => a.1 ≥ b.1) → ∀ cts w, firstVisible l = some (cts, w) →
    ∀ x ∈ l, x.2.kind ≠ .lock → x.1 ≤ cts := by
  induction l with
  | nil => intro _ cts w h; cases h
  | cons hd tl ih =>
    intro hs cts w h x hx hxk
    obtain ⟨c0, w0⟩ := hd
    rw [List.sorted_cons] at hs
    unfold firstVisible at h
    by_cases hk : w0.kind = .lock
    · rw [if_pos hk] at h
      rcases List.mem_cons.mp hx with heq | hxtl
      · rw [heq] at hxk; exact absurd hk hxk
      · exact ih hs.2 cts w h x hxtl hxk
    · rw [if_neg hk] at h
      injection Option.some.inj h with h1 h2
      subst h1
      subst h2
      rcases List.mem_cons.mp hx with heq | hxtl
      · rw [heq]
      · exact hs.1 x hxtl

/-- In an association list with no duplicate keys, two bindings of the same
key carry the same value. -/
theorem assoc_nodup_unique {α β : Type} [DecidableEq α] (l : List (α × β))
    (hnd : (l.map Prod.fst).Nodup) (a : α) (b1 b2 : β)
    (h1 : (a, b1) ∈ l) (h2 : (a, b2) ∈ l) : b1 = b2 := by
  induction l with
  | nil => cases h1
  | cons hd tl ih =>
    simp only [List.map_cons, List.nodup_cons] at hnd
    rcases List.mem_cons.mp h1 with heq1 | h1tl
    · rcases List.mem_cons.mp h2 with heq2 | h2tl
      · rw [← heq2] at heq1
        exact congrArg Prod.snd heq1
      · exfalso
        apply hnd.1
        rw [← heq1]
        exact List.mem_map.mpr ⟨(a, b2), h2tl, rfl⟩
    · rcases List.mem_cons.mp h2 with heq2 | h2tl
      · exfalso
        apply hnd.1
        rw [← heq2]
        exact List.mem_map.mpr ⟨(a, b1), h1tl, rfl⟩
      · exact ih hnd.2 h1tl h2tl

/-- C5: when the key carries no lock visible at the read timestamp and the
Write CF is well formed (no duplicate (key, commit_ts) slots),
`TxnStore::get` returns the Default CF value written by the committed
transaction with the greatest `commit_ts ≤ read_ts` when its kind is `Put`,
and `none` when that transaction is a `Delete` or when no non-`Lock` write
at or below the read timestamp exists; in particular after
`put("x","v", start_ts 5, commit_ts 10)` the reads at 9, 10 and 11 give
`none`, `"v"` and `"v"`. -/
theorem txn_get_visibility (st : MvccState) (key : KeyB) (ts : Nat)
    (hnolock : ∀ l, alookup st.lockCf key = some l → ts < l.startTs)
    (hnd : (st.writeCf.map Prod.fst).Nodup) :
    (∀ cts w, ((key, cts), w) ∈ st.writeCf → cts ≤ ts → w.kind ≠ .lock →
      (∀ cts' w', ((key, cts'), w') ∈ st.writeCf → cts' ≤ ts → w'.kind ≠ .lock → cts' ≤ cts) →
      txnStoreGet st key ts =
        .ok (if w.kind = .put then alookup st.defaultCf (key, w.startTs) else none)) ∧
    ((∀ cts w, ((key, cts), w) ∈ st.writeCf → cts ≤ ts → w.kind = .lock) →
      txnStoreGet st key ts = .ok none) ∧
    (c5State.map (fun s =>
        (txnStoreGet s [120] 9, txnStoreGet s [120] 10, txnStoreGet s [120] 11)) =
      some (.ok none, .ok (some [118]), .ok (some [118]))) := by
  have hres : txnStoreGet st key ts = mvccResolve st key ts := by
    unfold txnStoreGet mvccGet
    cases hl : alookup st.lockCf key with
    | none => rfl
    | some l =>
      have := hnolock l hl
      exact if_neg (by omega)
  refine ⟨?_, ?_, by decide⟩
  · intro cts w hmem hle hkind hmax
    have hmemD : (cts, w) ∈ writeDesc st key ts := (mem_writeDesc st key ts cts w).mpr ⟨hmem, hle⟩
    cases hfv : firstVisible (writeDesc st key ts) with
    | none =>
      exact absurd (firstVisible_none _ hfv (cts, w) hmemD) hkind
    | some cw =>
      obtain ⟨c0, w0⟩ := cw
      obtain ⟨hmem0, hk0⟩ := firstVisible_some _ _ _ hfv
      obtain ⟨hmem0', hle0⟩ := (mem_writeDesc st key ts c0 w0).mp hmem0
      have hc0cts : c0 ≤ cts := hmax c0 w0 hmem0' hle0 hk0
      have hctsc0 : cts ≤ c0 :=
        firstVisible_max _ (List.sorted_insertionSort _ _) c0 w0 hfv (cts, w) hmemD hkind
      have hceq : c0 = cts := Nat.le_antisymm hc0cts hctsc0
      subst hceq
      have hweq : w0 = w := assoc_nodup_unique st.writeCf hnd (key, c0) w0 w hmem0' hmem
      subst hweq
      rw [hres]
      by_cases hput : w0.kind = .put <;> simp [mvccResolve, hfv, hput]
  · intro hall
    cases hfv : firstVisible (writeDesc st key ts) with
    | none =>
      rw [hres]
      simp [mvccResolve, hfv]
    | some cw =>
      obtain ⟨c0, w0⟩ := cw
      obtain ⟨hmem0, hk0⟩ := firstVisible_some _ _ _ hfv
      obtain ⟨hmem0', hle0⟩ := (mem_writeDesc st key ts c0 w0).mp hmem0
      exact absurd (hall c0 w0 hmem0' hle0) hk0

/-- Concrete application of the C5 theorem: on the committed single-put
state the unique write at commit timestamp 10 is the latest visible write
at read timestamp 10, and the read returns the put value. -/
theorem txn_get_visibility_witness :
    txnStoreGet c5Committed [120] 10 = .ok (some [118]) := by
  have h := (txn_get_visibility c5Committed [120] 10
    (by intro l hl; simp [alookup] at hl) (by decide)).1 10 ⟨5, .put⟩
    (by decide) (by decide) (by decide)
    (by
      intro cts' w' hmem _ _
      simp only [c5Committed, List.mem_singleton, Prod.mk.injEq] at hmem
      omega)
  simpa using h

/-- Appending the byte `'\0'` to a key yields a strictly larger key in the
lexicographic order: the scan cursor strictly advances. -/
theorem key_lt_append_zero : ∀ (k : KeyB), k < k ++ [0]
  | [] => List.Lex.nil
  | _ :: as => List.Lex.cons (key_lt_append_zero as)

/-- The scan loop never grows the result vector past `limit`. -/
theorem txnScanLoop_length (st : MvccState) (eng : List KeyB) (ts limit : Nat) :
    ∀ (fuel : Nat) (key : KeyB) (acc : List ScanItem),
      (txnScanLoop st eng ts limit fuel key acc).length ≤ max acc.length limit := by
  intro fuel
  induction fuel with
  | zero => intro key acc; exact le_max_left _ _
  | succ n ih =>
    intro key acc
    by_cases hlim : acc.length < limit
    · cases hseek : seekKey eng key with
      | none =>
        unfold txnScanLoop
        rw [if_pos hlim, hseek]
        exact le_max_left _ _
      | some nk =>
        have hred : txnScanLoop st eng ts limit (n + 1) key acc =
            txnScanLoop st eng ts limit n (nk ++ [0])
              (match mvccGet st nk ts with
                | .ok (some v) => acc ++ [Except.ok (nk, v)]
                | .ok none => acc
                | .error e => acc ++ [Except.error e]) := by
          conv_lhs => unfold txnScanLoop
          rw [if_pos hlim, hseek]
        rw [hred]
        cases hg : mvccGet st nk ts with
        | ok ov =>
          cases ov with
          | some v =>
            refine le_trans (ih (nk ++ [0]) (acc ++ [Except.ok (nk, v)])) ?_
            simp only [List.length_append, List.length_singleton]
            omega
          | none => exact ih (nk ++ [0]) acc
        | error e =>
          refine le_trans (ih (nk ++ [0]) (acc ++ [Except.error e])) ?_
          simp only [List.length_append, List.length_singleton]
          omega
    · unfold txnScanLoop
      rw [if_neg hlim]
      exact le_max_left _ _

/-- Soundness of the scan loop: it only appends results, every successful
result is a key at or after the cursor that is present in the engine and
whose MVCC read at the scan timestamp yields its value, and the returned
keys are strictly ascending. -/
theorem txnScanLoop_sound (st : MvccState) (eng : List KeyB) (ts limit : Nat) :
    ∀ (fuel : Nat) (key : KeyB) (acc : List ScanItem),
      ∃ extra,
        txnScanLoop st eng ts limit fuel key acc = acc ++ extra ∧
        (∀ k v, Except.ok (k, v) ∈ extra →
          key ≤ k ∧ k ∈ eng ∧ mvccGet st k ts = .ok (some v)) ∧
        (okKeys extra).Pairwise (· < ·) ∧
        (∀ k, k ∈ okKeys extra → key ≤ k) := by
  intro fuel
  induction fuel with
  | zero =>
    intro key acc
    exact ⟨[], by simp [txnScanLoop], by simp, by simp [okKeys], by simp [okKeys]⟩
  | succ n ih =>
    intro key acc
    by_cases hlim : acc.length < limit
    · cases hseek : seekKey eng key with
      | none =>
        refine ⟨[], ?_, by simp, by simp [okKeys], by simp [okKeys]⟩
        unfold txnScanLoop
        rw [if_pos hlim, hseek]
        simp
      | some nk =>
        have hknk : key ≤ nk := by
          have := List.find?_some hseek
          simpa using this
        have hmemnk : nk ∈ eng := List.mem_of_find?_eq_some hseek
        have hsucc : nk < nk ++ [0] := key_lt_append_zero nk
        have hstep : ∀ k : KeyB, nk ++ [0] ≤ k → key ≤ k := fun k h =>
          le_trans hknk (le_trans (le_of_lt hsucc) h)
        have hred : txnScanLoop st eng ts limit (n + 1) key acc =
            txnScanLoop st eng ts limit n (nk ++ [0])
              (match mvccGet st nk ts with
                | .ok (some v) => acc ++ [Except.ok (nk, v)]
                | .ok none => acc
                | .error e => acc ++ [Except.error e]) := by
          conv_lhs => unfold txnScanLoop
          rw [if_pos hlim, hseek]
        cases hg : mvccGet st nk ts with
        | ok ov =>
          cases ov with
          | some v =>
            obtain ⟨extra, heq, hsound, hpw, hge⟩ := ih (nk ++ [0]) (acc ++ [Except.ok (nk, v)])
            refine ⟨Except.ok (nk, v) :: extra, ?_, ?_, ?_, ?_⟩
            · rw [hred, hg]
              show txnScanLoop st eng ts limit n (nk ++ [0]) (acc ++ [Except.ok (nk, v)]) =
                acc ++ (Except.ok (nk, v) :: extra)
              rw [heq, List.append_assoc]
              rfl
            · intro k v' hmem'
              rcases List.mem_cons.mp hmem' with heq' | htl
              · injection heq' with hkv
                injection hkv with hk hv
                subst hk
                subst hv
                exact ⟨hknk, hmemnk, hg⟩
              · obtain ⟨h1, h2, h3⟩ := hsound k v' htl
                exact ⟨hstep k h1, h2, h3⟩
            · show (nk :: okKeys extra).Pairwise (· < ·)
              refine List.Pairwise.cons ?_ hpw
              intro y hy
              exact lt_of_lt_of_le hsucc (hge y hy)
            · intro k hk
              rcases List.mem_cons.mp hk with heq' | htl
              · rw [heq']; exact hknk
              · exact hstep k (hge k htl)
          | none =>
            obtain ⟨extra, heq, hsound, hpw, hge⟩ := ih (nk ++ [0]) acc
            refine ⟨extra, ?_, ?_, hpw, ?_⟩
            · rw [hred, hg]
              exact heq
            · intro k v' htl
              obtain ⟨h1, h2, h3⟩ := hsound k v' htl
              exact ⟨hstep k h1, h2, h3⟩
            · intro k hk
              exact hstep k (hge k hk)
        | error e =>
          obtain ⟨extra, heq, hsound, hpw, hge⟩ := ih (nk ++ [0]) (acc ++ [Except.error e])
          refine ⟨Except.error e :: extra, ?_, ?_, ?_, ?_⟩
          · rw [hred, hg]
            show txnScanLoop st eng ts limit n (nk ++ [0]) (acc ++ [Except.error e]) =
              acc ++ (Except.error e :: extra)
            rw [heq, List.append_assoc]
            rfl
          · intro k v' hmem'
            rcases List.mem_cons.mp hmem' with heq' | htl
            · cases heq'
            · obtain ⟨h1, h2, h3⟩ := hsound k v' htl
              exact ⟨hstep k h1, h2, h3⟩
          · show (okKeys extra).Pairwise (· < ·)
            exact hpw
          · intro k hk
            exact hstep k (hge k hk)
    · refine ⟨[], ?_, by simp, by simp [okKeys], by simp [okKeys]⟩
      unfold txnScanLoop
      rw [if_neg hlim]
      simp

/-- C9: for every start key, limit and timestamp, `TxnStore::scan` succeeds
with at most `limit` results (none at all for limit 0), visiting candidate
keys in ascending engine order from the start key and applying the
get-semantics MVCC visibility to each one: every successful result pair is
an engine key at or after the start whose `MvccTxn::get` at the scan
timestamp returns exactly that value. -/
theorem txn_scan_limit_and_visibility (st : MvccState) (eng : List KeyB) (key : KeyB)
    (limit ts : Nat) :
    (txnStoreScan st eng key limit ts).length ≤ limit ∧
    (limit = 0 → txnStoreScan st eng key limit ts = []) ∧
    (∀ k v, Except.ok (k, v) ∈ txnStoreScan st eng key limit ts →
      key ≤ k ∧ k ∈ eng ∧ mvccGet st k ts = .ok (some v)) ∧
    (okKeys (txnStoreScan st eng key limit ts)).Pairwise (· < ·) := by
  have hlen := txnScanLoop_length st eng ts limit (eng.length + 1) key []
  obtain ⟨extra, heq, hsound, hpw, _⟩ := txnScanLoop_sound st eng ts limit (eng.length + 1) key []
  have hsc : txnStoreScan st eng key limit ts = extra := by
    unfold txnStoreScan
    rw [heq]
    exact List.nil_append extra
  rw [hsc]
  rw [heq] at hlen
  simp only [List.nil_append, List.length_nil, Nat.max_eq_right (Nat.zero_le limit)] at hlen
  refine ⟨hlen, fun h0 => ?_, hsound, hpw⟩
  rw [h0] at hlen
  exact List.eq_nil_of_length_eq_zero (Nat.le_zero.mp hlen)

/-- Concrete application of the C9 theorem: a scan with limit 0 returns the
empty vector. -/
theorem txn_scan_limit_and_visibility_witness :
    txnStoreScan c5Committed [[120]] [] 0 10 = [] :=
  (txn_scan_limit_and_visibility c5Committed [[120]] [] 0 10).2.1 rfl

end Tikv
